import Mathlib

/-!
Shallow embedding of the Go package `gset` (file `gset.go`), which
implements a generic set `Set[T comparable]` as `map[T]struct{}`.

A map value is modelled by the list of its keys in some iteration order
(Go leaves that order unspecified, so every theorem below quantifies over
it); map keys are unique, hence the `Nodup` invariant.  A map insertion
`m[x] = struct{}{}` leaves the key set unchanged when `x` is already a
key and otherwise adds `x`; a `for ... range` loop over a map is a fold
over the key list.  The methods of `Set[T]` are translated loop by loop
below.  Mutating methods (`Add`, `Delete`, `Unite`, ...) return the new
state of the receiver; a separate store model (`Heap`, further down) is
used for the claims about which sets a method mutates.
-/

set_option autoImplicit false
set_option linter.unusedSectionVars false

/-- A `Set[T]` value: the keys of the backing `map[T]struct{}`, listed
in some iteration order.  Map keys are unique. -/
structure GSet (T : Type) where
  elems : List T
  nodup : elems.Nodup

variable {T : Type} [DecidableEq T]

/-- `m[x] = struct{}{}` on the key set of a map: no change when the key
is present, otherwise the key `x` is added. -/
def mapInsert (m : List T) (x : T) : List T :=
  if x ∈ m then m else m ++ [x]

/-- `for _, e := range src { dst[e] = struct{}{} }`. -/
def insertAll (dst : List T) (src : List T) : List T :=
  src.foldl mapInsert dst

/-- `for e := range src { if cond e { dst[e] = struct{}{} } }`. -/
def rangeInsert (dst : List T) (src : List T) (cond : T → Bool) : List T :=
  src.foldl (fun m e => if cond e then mapInsert m e else m) dst

theorem mem_mapInsert (m : List T) (x y : T) :
    y ∈ mapInsert m x ↔ y ∈ m ∨ y = x := by
  unfold mapInsert
  by_cases h : x ∈ m
  · simp only [if_pos h]
    constructor
    · exact Or.inl
    · rintro (hy | rfl)
      · exact hy
      · exact h
  · simp [if_neg h]

theorem nodup_mapInsert (m : List T) (x : T) (h : m.Nodup) :
    (mapInsert m x).Nodup := by
  unfold mapInsert
  by_cases hx : x ∈ m
  · simpa [if_pos hx]
  · rw [if_neg hx, List.nodup_append]
    refine ⟨h, List.nodup_singleton x, ?_⟩
    intro a ha hb
    rcases List.mem_singleton.mp hb with rfl
    exact hx ha

theorem mem_rangeInsert (src : List T) (cond : T → Bool) (dst : List T) (y : T) :
    y ∈ rangeInsert dst src cond ↔ y ∈ dst ∨ (y ∈ src ∧ cond y = true) := by
  induction src generalizing dst with
  | nil => simp [rangeInsert]
  | cons x xs ih =>
    show y ∈ rangeInsert (if cond x then mapInsert dst x else dst) xs cond ↔ _
    rw [ih]
    by_cases hc : cond x
    · rw [if_pos hc, mem_mapInsert]
      constructor
      · rintro ((hy | rfl) | ⟨hy, hcy⟩)
        · exact Or.inl hy
        · exact Or.inr ⟨List.mem_cons_self _ _, hc⟩
        · exact Or.inr ⟨List.mem_cons_of_mem _ hy, hcy⟩
      · rintro (hy | ⟨hy, hcy⟩)
        · exact Or.inl (Or.inl hy)
        · rcases List.mem_cons.mp hy with rfl | hy
          · exact Or.inl (Or.inr rfl)
          · exact Or.inr ⟨hy, hcy⟩
    · rw [if_neg hc]
      constructor
      · rintro (hy | ⟨hy, hcy⟩)
        · exact Or.inl hy
        · exact Or.inr ⟨List.mem_cons_of_mem _ hy, hcy⟩
      · rintro (hy | ⟨hy, hcy⟩)
        · exact Or.inl hy
        · rcases List.mem_cons.mp hy with rfl | hy
          · exact absurd hcy (by simpa using hc)
          · exact Or.inr ⟨hy, hcy⟩

theorem nodup_rangeInsert (src : List T) (cond : T → Bool) (dst : List T)
    (h : dst.Nodup) : (rangeInsert dst src cond).Nodup := by
  induction src generalizing dst with
  | nil => exact h
  | cons x xs ih =>
    show (rangeInsert (if cond x then mapInsert dst x else dst) xs cond).Nodup
    by_cases hc : cond x
    · exact ih _ (by rw [if_pos hc]; exact nodup_mapInsert _ _ h)
    · exact ih _ (by rwa [if_neg hc])

theorem insertAll_eq_rangeInsert (dst src : List T) :
    insertAll dst src = rangeInsert dst src (fun _ => true) := by
  simp [insertAll, rangeInsert]

theorem mem_insertAll (dst src : List T) (y : T) :
    y ∈ insertAll dst src ↔ y ∈ dst ∨ y ∈ src := by
  rw [insertAll_eq_rangeInsert, mem_rangeInsert]
  simp

theorem nodup_insertAll (dst src : List T) (h : dst.Nodup) :
    (insertAll dst src).Nodup := by
  rw [insertAll_eq_rangeInsert]
  exact nodup_rangeInsert _ _ _ h

theorem GSet.eq_of_elems {a b : GSet T} (h : a.elems = b.elems) : a = b := by
  cases a; cases b; cases h; rfl

namespace GSet

/-- `New` (gset.go): `set := make(Set[T], ...); for _, e := range
elements { set[e] = struct{}{} }; return set`. -/
def New (elements : List T) : GSet T :=
  ⟨insertAll [] elements, nodup_insertAll _ _ List.nodup_nil⟩

/-- `Contains` (gset.go): `_, found := me[element]; return found`. -/
def Contains (me : GSet T) (element : T) : Bool :=
  decide (element ∈ me.elems)

/-- `IsEmpty` (gset.go): `len(me) == 0`. -/
def IsEmpty (me : GSet T) : Bool :=
  decide (me.elems.length = 0)

/-- `ToSlice` (gset.go): append every element in iteration order. -/
def ToSlice (me : GSet T) : List T :=
  me.elems

/-- `Add` (gset.go): `for _, e := range elements { me[e] = struct{}{} }`;
returns the new state of the receiver. -/
def Add (me : GSet T) (elements : List T) : GSet T :=
  ⟨insertAll me.elems elements, nodup_insertAll _ _ me.nodup⟩

/-- `Delete` (gset.go): `for _, e := range elements { delete(me, e) }`;
`delete` removes the key if present; returns the new receiver state. -/
def Delete (me : GSet T) (elements : List T) : GSet T :=
  ⟨elements.foldl (fun m x => m.filter (fun e => decide (e ≠ x))) me.elems, by
    have h : ∀ (es : List T) (m : List T), m.Nodup →
        (es.foldl (fun m x => m.filter (fun e => decide (e ≠ x))) m).Nodup := by
      intro es
      induction es with
      | nil => exact fun m hm => hm
      | cons x xs ih => exact fun m hm => ih _ (hm.filter _)
    exact h _ _ me.nodup⟩

/-- `Difference` (gset.go): `diff := Set[T]{}; for e := range me { if
!other.Contains(e) { diff[e] = struct{}{} } }; return diff`. -/
def Difference (me other : GSet T) : GSet T :=
  ⟨rangeInsert [] me.elems (fun e => !(other.Contains e)),
    nodup_rangeInsert _ _ _ List.nodup_nil⟩

/-- `SymmetricDifference` (gset.go): both loops, each inserting the
elements of one set that the other does not contain. -/
def SymmetricDifference (me other : GSet T) : GSet T :=
  ⟨rangeInsert (rangeInsert [] me.elems (fun e => !(other.Contains e)))
      other.elems (fun e => !(me.Contains e)),
    nodup_rangeInsert _ _ _ (nodup_rangeInsert _ _ _ List.nodup_nil)⟩

/-- `Intersection` (gset.go): both loops, each inserting the elements of
one set that the other also contains. -/
def Intersection (me other : GSet T) : GSet T :=
  ⟨rangeInsert (rangeInsert [] me.elems (fun e => other.Contains e))
      other.elems (fun e => me.Contains e),
    nodup_rangeInsert _ _ _ (nodup_rangeInsert _ _ _ List.nodup_nil)⟩

/-- `Union` (gset.go): `union := make(Set[T], len(me))`; insert every
element of `me`, then every element of `other`. -/
def Union (me other : GSet T) : GSet T :=
  ⟨insertAll (insertAll [] me.elems) other.elems,
    nodup_insertAll _ _ (nodup_insertAll _ _ List.nodup_nil)⟩

/-- `Copy` (gset.go): `other := make(Set[T], len(me))`; insert every
element of `me`. -/
def Copy (me : GSet T) : GSet T :=
  ⟨insertAll [] me.elems, nodup_insertAll _ _ List.nodup_nil⟩

end GSet

/-! ## Ordering and rendering

`ToSortedSlice` and `Set.String` sort with `sort.Slice(..., less)`.  The
package function `less` type-switches on the dynamic type of its
arguments; at a concrete element type `T` every call takes the single
branch that matches `T`, so the embedding passes that branch as a
comparator `lt : T → T → Bool` (`lessNative` for the numeric and
`string` cases, `lessRender` for the `default` case).  `sort.Slice`
orders the slice increasingly under `lt`: in its output `b` never
precedes `a` while `lt b a` holds, i.e. consecutive elements satisfy
`leOf lt`.  It is modelled by insertion sort, which produces exactly
that; for a comparator that is antisymmetric the sorted permutation is
unique, so the model agrees with any sorting algorithm there. -/

/-- The non-strict relation a slice sorted by `sort.Slice(..., lt)`
satisfies: `a` may precede `b` when `lt b a` is false. -/
def leOf (lt : T → T → Bool) : T → T → Prop := fun a b => lt b a = false

instance (lt : T → T → Bool) : DecidableRel (leOf lt) :=
  fun a b => Bool.decEq (lt b a) false

/-- Model of `sort.Slice(l, func(i, j int) bool { return less(l[i], l[j]) })`. -/
def goSort (lt : T → T → Bool) (l : List T) : List T :=
  List.insertionSort (leOf lt) l

/-- The numeric and `string` branches of `less` (gset.go): after the
type switch, `x < b.(T)` at the concrete element type.  Instantiating
`T` at `Int` models the signed-integer cases, at `Nat` the unsigned
cases, and at `String` the `string` case (Go's `<` on strings is
lexicographic, as is Lean's). -/
def lessNative (T : Type) [LinearOrder T] (a b : T) : Bool :=
  decide (a < b)

/-- The `default` branch of `less` (gset.go):
`fmt.Sprintf("%v", a) < fmt.Sprintf("%v", b)`.  `render` stands for
`fmt.Sprintf("%v", ·)`, library code outside this repository. -/
def lessRender (render : T → String) (a b : T) : Bool :=
  decide (render a < render b)

namespace GSet

/-- `ToSortedSlice` (gset.go): copy the elements in iteration order,
then sort the copy with `less` (passed as `lt`, see above). -/
def ToSortedSlice (lt : T → T → Bool) (me : GSet T) : List T :=
  goSort lt me.elems

/-- The per-element rendering inside `Set.String` (gset.go): the
`any(element).(string)` type assertion selects `%q` for string-typed
elements and `%v` for every other element.  `strVal` models the
assertion (at `T = String` it is `some ·`, at every other element type
it is `fun _ => none`); `quote` models `fmt.Sprintf("%q", ·)` and
`render` models `fmt.Sprintf("%v", ·)`, both `fmt` library code outside
this repository. -/
def elemRender (strVal : T → Option String) (quote : String → String)
    (render : T → String) (element : T) : String :=
  match strVal element with
  | some selement => quote selement
  | none => render element

/-- `Set.String` (gset.go): collect the elements, sort them with
`less`, then write `{`, each element preceded by a separator that is
empty for the first element and one space afterwards, and `}`. -/
def SetString (lt : T → T → Bool) (strVal : T → Option String)
    (quote : String → String) (render : T → String) (me : GSet T) : String :=
  let elements := goSort lt me.elems
  let out := elements.foldl
    (fun (acc : String × String) element =>
      (acc.1 ++ acc.2 ++ elemRender strVal quote render element, " "))
    ("\x7b", "")
  out.1 ++ "\x7d"

end GSet

/-- Space-separated concatenation: the textual shape the spec gives for
the body of `Set.String` (`e1 e2 ...`). -/
def spaceSeparated : List String → String
  | [] => ""
  | [x] => x
  | x :: y :: xs => x ++ " " ++ spaceSeparated (y :: xs)

/-- The one-directional membership scan the spec says suffices for
`IsDisjoint`: scan only the receiver against the argument. -/
def isDisjointOneScan (me other : GSet T) : Bool :=
  me.elems.all fun e => !(GSet.Contains other e)

namespace GSet

/-- `Equal` (gset.go): `if len(me) != len(other) { return false }`, then
`for e := range me { if !other.Contains(e) { return false } }; return
true`. -/
def Equal (me other : GSet T) : Bool :=
  if me.elems.length ≠ other.elems.length then false
  else me.elems.all fun e => other.Contains e

/-- `IsDisjoint` (gset.go): scan `me` against `other`, then `other`
against `me`, returning false on the first common element. -/
def IsDisjoint (me other : GSet T) : Bool :=
  (me.elems.all fun e => !(other.Contains e)) &&
    (other.elems.all fun e => !(me.Contains e))

end GSet

/-! ## Store model

Go maps are reference values: a `Set[T]` variable names a map in the
heap, and a method mutates exactly the maps it writes through.  For the
claims about which sets an operation mutates, the set-algebra methods
are re-traced over an explicit store: a reference is an index, `mem r`
is the key list of the map that `r` names, and `next` is the next fresh
index (`alloc` models `make(Set[T], ...)` and the literal `Set[T]{}`).
Writes are explicit, so "receiver and argument are unmodified" is a
consequence of where the loops write, not of the encoding. -/

structure Heap (T : Type) where
  mem : Nat → List T
  next : Nat

def Heap.write (σ : Heap T) (r : Nat) (v : List T) : Heap T :=
  ⟨fun i => if i = r then v else σ.mem i, σ.next⟩

/-- `make(Set[T], ...)` or `Set[T]{}`: allocate a fresh empty map and
return a reference to it. -/
def Heap.alloc (σ : Heap T) : Heap T × Nat :=
  (⟨fun i => if i = σ.next then [] else σ.mem i, σ.next + 1⟩, σ.next)

/-- Key lookup, `_, found := m[x]`, on a map's key list. -/
def keyContains (m : List T) (x : T) : Bool := decide (x ∈ m)

/-- `for e := range xs { if cond e { dst[e] = struct{}{} } }` over the
store; `cond` reads the current store, as the loop bodies call
`Contains` on live maps. -/
def rangeInsertH (σ : Heap T) (dst : Nat) (xs : List T)
    (cond : Heap T → T → Bool) : Heap T :=
  xs.foldl
    (fun σ' e =>
      if cond σ' e then σ'.write dst (mapInsert (σ'.mem dst) e) else σ')
    σ

/-- `Difference` (gset.go) over the store: allocate `diff`, loop over
`me` inserting the elements `other` does not contain, return `diff`. -/
def differenceH (σ : Heap T) (me other : Nat) : Heap T × Nat :=
  let a := Heap.alloc σ
  (rangeInsertH a.1 a.2 (a.1.mem me)
      (fun σ' e => !(keyContains (σ'.mem other) e)),
    a.2)

/-- `SymmetricDifference` (gset.go) over the store: allocate `diff`,
then the two loops. -/
def symmetricDifferenceH (σ : Heap T) (me other : Nat) : Heap T × Nat :=
  let a := Heap.alloc σ
  let σ1 := rangeInsertH a.1 a.2 (a.1.mem me)
    (fun σ' e => !(keyContains (σ'.mem other) e))
  (rangeInsertH σ1 a.2 (σ1.mem other)
      (fun σ' e => !(keyContains (σ'.mem me) e)),
    a.2)

/-- `Intersection` (gset.go) over the store: allocate, then the two
loops with positive membership conditions. -/
def intersectionH (σ : Heap T) (me other : Nat) : Heap T × Nat :=
  let a := Heap.alloc σ
  let σ1 := rangeInsertH a.1 a.2 (a.1.mem me)
    (fun σ' e => keyContains (σ'.mem other) e)
  (rangeInsertH σ1 a.2 (σ1.mem other)
      (fun σ' e => keyContains (σ'.mem me) e),
    a.2)

/-- `Union` (gset.go) over the store: allocate `union`, insert every
element of `me`, then every element of `other`, return `union`. -/
def unionH (σ : Heap T) (me other : Nat) : Heap T × Nat :=
  let a := Heap.alloc σ
  let σ1 := rangeInsertH a.1 a.2 (a.1.mem me) (fun _ _ => true)
  (rangeInsertH σ1 a.2 (σ1.mem other) (fun _ _ => true), a.2)

/-- `Copy` (gset.go) over the store: allocate `other`, insert every
element of `me`, return it. -/
def copyH (σ : Heap T) (me : Nat) : Heap T × Nat :=
  let a := Heap.alloc σ
  (rangeInsertH a.1 a.2 (a.1.mem me) (fun _ _ => true), a.2)

/-- `Unite` (gset.go) over the store: no allocation; insert every
element of `other` into the receiver `me`. -/
def uniteH (σ : Heap T) (me other : Nat) : Heap T :=
  rangeInsertH σ me (σ.mem other) (fun _ _ => true)

theorem Heap.write_mem_ne (σ : Heap T) (r : Nat) (v : List T) (i : Nat)
    (h : i ≠ r) : (σ.write r v).mem i = σ.mem i := by
  simp [Heap.write, h]

theorem rangeInsertH_next (σ : Heap T) (dst : Nat) (xs : List T)
    (cond : Heap T → T → Bool) :
    (rangeInsertH σ dst xs cond).next = σ.next := by
  induction xs generalizing σ with
  | nil => rfl
  | cons x xs ih =>
    show (rangeInsertH (if _ then _ else _) dst xs cond).next = _
    rw [ih]
    by_cases hc : cond σ x
    · rw [if_pos hc]; rfl
    · rw [if_neg hc]

theorem rangeInsertH_mem_ne (σ : Heap T) (dst : Nat) (xs : List T)
    (cond : Heap T → T → Bool) (i : Nat) (h : i ≠ dst) :
    (rangeInsertH σ dst xs cond).mem i = σ.mem i := by
  induction xs generalizing σ with
  | nil => rfl
  | cons x xs ih =>
    show (rangeInsertH (if _ then _ else _) dst xs cond).mem i = _
    rw [ih]
    by_cases hc : cond σ x
    · rw [if_pos hc]; exact Heap.write_mem_ne _ _ _ _ h
    · rw [if_neg hc]

theorem rangeInsertH_mem_dst (σ : Heap T) (dst : Nat) (xs : List T) :
    (rangeInsertH σ dst xs (fun _ _ => true)).mem dst
      = insertAll (σ.mem dst) xs := by
  induction xs generalizing σ with
  | nil => rfl
  | cons x xs ih =>
    show (rangeInsertH (Heap.write σ dst (mapInsert (σ.mem dst) x)) dst xs
        (fun _ _ => true)).mem dst = _
    rw [ih]
    simp [Heap.write, insertAll]

/-! ## Basic facts about the operations -/

theorem GSet.contains_iff (s : GSet T) (x : T) :
    GSet.Contains s x = true ↔ x ∈ s.elems := by
  simp [GSet.Contains]

theorem perm_of_nodup_mem_iff {l1 l2 : List T} (h1 : l1.Nodup)
    (h2 : l2.Nodup) (h : ∀ x, x ∈ l1 ↔ x ∈ l2) : List.Perm l1 l2 :=
  List.perm_of_nodup_nodup_toFinset_eq h1 h2 (List.toFinset.ext h)

theorem GSet.mem_union (a b : GSet T) (x : T) :
    x ∈ (GSet.Union a b).elems ↔ x ∈ a.elems ∨ x ∈ b.elems := by
  show x ∈ insertAll (insertAll [] a.elems) b.elems ↔ _
  rw [mem_insertAll, mem_insertAll]
  simp

theorem GSet.mem_difference (a b : GSet T) (x : T) :
    x ∈ (GSet.Difference a b).elems ↔ x ∈ a.elems ∧ x ∉ b.elems := by
  show x ∈ rangeInsert [] a.elems (fun e => !(GSet.Contains b e)) ↔ _
  rw [mem_rangeInsert]
  simp [GSet.Contains]

theorem GSet.mem_symmetricDifference (a b : GSet T) (x : T) :
    x ∈ (GSet.SymmetricDifference a b).elems
      ↔ (x ∈ a.elems ∧ x ∉ b.elems) ∨ (x ∈ b.elems ∧ x ∉ a.elems) := by
  show x ∈ rangeInsert (rangeInsert [] a.elems _) b.elems _ ↔ _
  rw [mem_rangeInsert, mem_rangeInsert]
  simp [GSet.Contains]

theorem GSet.mem_intersection (a b : GSet T) (x : T) :
    x ∈ (GSet.Intersection a b).elems ↔ x ∈ a.elems ∧ x ∈ b.elems := by
  show x ∈ rangeInsert (rangeInsert [] a.elems _) b.elems _ ↔ _
  rw [mem_rangeInsert, mem_rangeInsert]
  simp [GSet.Contains]
  tauto

theorem GSet.equal_iff (a b : GSet T) :
    GSet.Equal a b = true ↔ ∀ x, x ∈ a.elems ↔ x ∈ b.elems := by
  unfold GSet.Equal
  by_cases hlen : a.elems.length = b.elems.length
  · rw [if_neg (by simpa using hlen)]
    constructor
    · intro hall
      have hsub : a.elems ⊆ b.elems := by
        intro x hx
        have := (List.all_eq_true.mp hall) x hx
        exact (GSet.contains_iff b x).mp this
      have hperm : List.Perm a.elems b.elems :=
        (List.subperm_of_subset a.nodup hsub).perm_of_length_le (le_of_eq hlen.symm)
      exact fun x => hperm.mem_iff
    · intro h
      exact List.all_eq_true.mpr fun x hx => (GSet.contains_iff b x).mpr ((h x).mp hx)
  · rw [if_pos (by simpa using hlen)]
    constructor
    · intro h
      exact absurd h (by simp)
    · intro h
      exact absurd ((perm_of_nodup_mem_iff a.nodup b.nodup h).length_eq) hlen

/-! ## Claims about `New`, the set algebra, `Delete`, `Equal`,
`IsDisjoint` -/

/-- Claim C1: for every finite list of input elements, `New(elements...)`
returns a set that contains exactly the distinct input elements: its
size equals the number of distinct elements regardless of input order
or duplicates, and `Contains x` is true iff `x` occurs in the input
list. -/
theorem claim1_new_distinct {T : Type} [DecidableEq T] (es : List T) :
    (GSet.New es).elems.length = es.dedup.length ∧
      ∀ x : T, GSet.Contains (GSet.New es) x = true ↔ x ∈ es := by
  constructor
  · have hperm : List.Perm (GSet.New es).elems es.dedup :=
      perm_of_nodup_mem_iff (GSet.New es).nodup es.nodup_dedup
        (fun x => by
          show x ∈ insertAll [] es ↔ _
          rw [mem_insertAll, List.mem_dedup]
          simp)
    exact hperm.length_eq
  · intro x
    rw [GSet.contains_iff]
    show x ∈ insertAll [] es ↔ _
    rw [mem_insertAll]
    simp

/-- Claim C5: `Union` is commutative: for all sets `a` and `b` over the
same element type, `a.Union(b).Equal(b.Union(a))` is true. -/
theorem claim5_union_comm {T : Type} [DecidableEq T] (a b : GSet T) :
    GSet.Equal (GSet.Union a b) (GSet.Union b a) = true := by
  rw [GSet.equal_iff]
  intro x
  rw [GSet.mem_union, GSet.mem_union]
  exact or_comm

/-- Claim C6: for all sets `a` and `b`, `a.SymmetricDifference(b)`
equals, as a set, the union of `a.Difference(b)` and `b.Difference(a)`:
it contains exactly the elements that are in exactly one of the two
sets. -/
theorem claim6_symmetric_difference {T : Type} [DecidableEq T] (a b : GSet T) :
    GSet.Equal (GSet.SymmetricDifference a b)
        (GSet.Union (GSet.Difference a b) (GSet.Difference b a)) = true ∧
      ∀ x : T, GSet.Contains (GSet.SymmetricDifference a b) x = true
        ↔ (x ∈ a.elems ∧ x ∉ b.elems) ∨ (x ∈ b.elems ∧ x ∉ a.elems) := by
  constructor
  · rw [GSet.equal_iff]
    intro x
    rw [GSet.mem_symmetricDifference, GSet.mem_union, GSet.mem_difference,
      GSet.mem_difference]
  · intro x
    rw [GSet.contains_iff, GSet.mem_symmetricDifference]

/-- Claim C8: for every set `s` and element `x` not in `s`,
`s.Delete(x)` leaves `s` unchanged (and, the operation being total,
signals no error); for elements that are present, `Delete` removes
each of them, and `Delete` is total for any argument list. -/
theorem claim8_delete (T : Type) [DecidableEq T] :
    (∀ (s : GSet T) (x : T), x ∉ s.elems → GSet.Delete s [x] = s) ∧
      ∀ (s : GSet T) (es : List T) (x : T),
        GSet.Contains (GSet.Delete s es) x = true ↔ x ∈ s.elems ∧ x ∉ es := by
  have hmem : ∀ (es m : List T) (x : T),
      x ∈ es.foldl (fun m y => m.filter (fun e => decide (e ≠ y))) m
        ↔ x ∈ m ∧ x ∉ es := by
    intro es
    induction es with
    | nil => simp
    | cons y ys ih =>
      intro m x
      show x ∈ ys.foldl _ (m.filter fun e => decide (e ≠ y)) ↔ _
      rw [ih]
      simp only [List.mem_filter, decide_eq_true_eq, List.mem_cons, not_or]
      tauto
  constructor
  · intro s x hx
    apply GSet.eq_of_elems
    show (s.elems.filter fun e => decide (e ≠ x)) = s.elems
    exact List.filter_eq_self.mpr fun a ha => by
      simp only [decide_eq_true_eq]
      exact fun h => hx (h ▸ ha)
  · intro s es x
    rw [GSet.contains_iff]
    exact hmem es s.elems x

/-- Claim C8 witness: deleting the absent element 5 from the set
containing 1 and 2 leaves it unchanged, and after deleting 1 the set
contains 2 but not 1. -/
theorem claim8_delete_witness :
    GSet.Delete (GSet.New [1, 2]) [5] = GSet.New ([1, 2] : List Int) ∧
      GSet.Contains (GSet.Delete (GSet.New ([1, 2] : List Int)) [1]) 2 = true := by
  constructor
  · exact (claim8_delete Int).1 (GSet.New [1, 2]) 5 (by decide)
  · exact ((claim8_delete Int).2 (GSet.New [1, 2]) [1] 2).mpr (by decide)

/-- Claim C9: for all sets `a` and `b`, `a.IsDisjoint(b)` returns true
iff no element is a member of both sets, and the implemented
both-direction scan returns the same result as a single-direction scan
of `a` against `b` only. -/
theorem claim9_is_disjoint {T : Type} [DecidableEq T] (a b : GSet T) :
    (GSet.IsDisjoint a b = true ↔ ∀ x : T, ¬(x ∈ a.elems ∧ x ∈ b.elems)) ∧
      GSet.IsDisjoint a b = isDisjointOneScan a b := by
  have hiff : GSet.IsDisjoint a b = true
      ↔ ∀ x : T, ¬(x ∈ a.elems ∧ x ∈ b.elems) := by
    unfold GSet.IsDisjoint
    rw [Bool.and_eq_true, List.all_eq_true, List.all_eq_true]
    constructor
    · rintro ⟨h1, _⟩ x ⟨hxa, hxb⟩
      have := h1 x hxa
      simp only [Bool.not_eq_true', ← Bool.not_eq_true, GSet.contains_iff] at this
      exact this hxb
    · intro h
      constructor
      · intro x hx
        simp only [Bool.not_eq_true', ← Bool.not_eq_true, GSet.contains_iff]
        exact fun hxb => h x ⟨hx, hxb⟩
      · intro x hx
        simp only [Bool.not_eq_true', ← Bool.not_eq_true, GSet.contains_iff]
        exact fun hxa => h x ⟨hxa, hx⟩
  refine ⟨hiff, ?_⟩
  have hone : isDisjointOneScan a b = true
      ↔ ∀ x : T, ¬(x ∈ a.elems ∧ x ∈ b.elems) := by
    unfold isDisjointOneScan
    rw [List.all_eq_true]
    constructor
    · rintro h x ⟨hxa, hxb⟩
      have := h x hxa
      simp only [Bool.not_eq_true', ← Bool.not_eq_true, GSet.contains_iff] at this
      exact this hxb
    · intro h x hx
      simp only [Bool.not_eq_true', ← Bool.not_eq_true, GSet.contains_iff]
      exact fun hxb => h x ⟨hx, hxb⟩
  exact Bool.eq_iff_iff.mpr (hiff.trans hone.symm)

/-- Claim C10: `Equal` is symmetric: `a.Equal(b)` returns the same
boolean as `b.Equal(a)`, although the implementation checks membership
in only one direction after comparing sizes. -/
theorem claim10_equal_symm {T : Type} [DecidableEq T] (a b : GSet T) :
    GSet.Equal a b = GSet.Equal b a := by
  apply Bool.eq_iff_iff.mpr
  rw [GSet.equal_iff, GSet.equal_iff]
  exact ⟨fun h x => (h x).symm, fun h x => (h x).symm⟩

/-! ## Sorting facts -/

theorem perm_goSort (lt : T → T → Bool) (l : List T) :
    List.Perm (goSort lt l) l :=
  List.perm_insertionSort (leOf lt) l

theorem sorted_goSort (lt : T → T → Bool)
    (htot : ∀ a b : T, leOf lt a b ∨ leOf lt b a)
    (htrans : ∀ a b c : T, leOf lt a b → leOf lt b c → leOf lt a c)
    (l : List T) : (goSort lt l).Sorted (leOf lt) := by
  haveI : IsTotal T (leOf lt) := ⟨htot⟩
  haveI : IsTrans T (leOf lt) := ⟨htrans⟩
  exact List.sorted_insertionSort (leOf lt) l

/-- Claim C3: `ToSortedSlice()` returns a slice containing exactly the
set's elements (the result is a permutation of the key list), ordered
by the comparator the code uses: whenever the induced `leOf` relation
is total and transitive the result is sorted under it.  The remaining
conjuncts identify that comparator branch by branch, following the
`less` type switch: at the numeric and string element types (any
linear order) `lessNative` induces exactly the native non-strict order
`≤` — total, transitive and antisymmetric, a total order — and at any
other comparable element type `lessRender` induces the lexicographic
comparison of the default string renderings, which is total and
transitive, so the sort is defined (the operation never fails) at
every comparable element type. -/
theorem claim3_to_sorted_slice :
    (∀ (T : Type) [DecidableEq T] (lt : T → T → Bool) (s : GSet T),
        List.Perm (GSet.ToSortedSlice lt s) s.elems) ∧
      (∀ (T : Type) [DecidableEq T] (lt : T → T → Bool),
        (∀ a b : T, leOf lt a b ∨ leOf lt b a) →
        (∀ a b c : T, leOf lt a b → leOf lt b c → leOf lt a c) →
        ∀ s : GSet T, (GSet.ToSortedSlice lt s).Sorted (leOf lt)) ∧
      (∀ (T : Type) [LinearOrder T],
        (∀ a b : T, leOf (lessNative T) a b ↔ a ≤ b) ∧
        (∀ a b : T, leOf (lessNative T) a b ∨ leOf (lessNative T) b a) ∧
        (∀ a b c : T, leOf (lessNative T) a b → leOf (lessNative T) b c →
          leOf (lessNative T) a c) ∧
        (∀ a b : T, leOf (lessNative T) a b → leOf (lessNative T) b a → a = b)) ∧
      ∀ (T : Type) (render : T → String),
        (∀ a b : T, leOf (lessRender render) a b ↔ render a ≤ render b) ∧
        (∀ a b : T, leOf (lessRender render) a b ∨ leOf (lessRender render) b a) ∧
        ∀ a b c : T, leOf (lessRender render) a b → leOf (lessRender render) b c →
          leOf (lessRender render) a c := by
  refine ⟨?_, ?_, ?_, ?_⟩
  · intro T _ lt s
    exact perm_goSort lt s.elems
  · intro T _ lt htot htrans s
    exact sorted_goSort lt htot htrans s.elems
  · intro T _
    have hiff : ∀ a b : T, leOf (lessNative T) a b ↔ a ≤ b := by
      intro a b
      simp [leOf, lessNative, not_lt]
    refine ⟨hiff, ?_, ?_, ?_⟩
    · intro a b
      rw [hiff, hiff]
      exact le_total a b
    · intro a b c hab hbc
      rw [hiff] at hab hbc ⊢
      exact le_trans hab hbc
    · intro a b hab hba
      rw [hiff] at hab hba
      exact le_antisymm hab hba
  · intro T render
    have hiff : ∀ a b : T, leOf (lessRender render) a b ↔ render a ≤ render b := by
      intro a b
      simp [leOf, lessRender, not_lt]
    refine ⟨hiff, ?_, ?_⟩
    · intro a b
      rw [hiff, hiff]
      exact le_total (render a) (render b)
    · intro a b c hab hbc
      rw [hiff] at hab hbc ⊢
      exact le_trans hab hbc

/-- Claim C3 witness: sorting the set built from 3, 1, 2 over `Int`
yields the slice 1, 2, 3, and that slice is sorted under the order
induced by the native comparator. -/
theorem claim3_to_sorted_slice_witness :
    GSet.ToSortedSlice (lessNative Int) (GSet.New [3, 1, 2]) = [1, 2, 3] ∧
      (GSet.ToSortedSlice (lessNative Int) (GSet.New [3, 1, 2])).Sorted
        (leOf (lessNative Int)) := by
  constructor
  · decide
  · exact claim3_to_sorted_slice.2.1 Int (lessNative Int)
      (claim3_to_sorted_slice.2.2.1 Int).2.1
      (claim3_to_sorted_slice.2.2.1 Int).2.2.1
      (GSet.New [3, 1, 2])

/-! ## Rendering facts -/

/-- The tail of the separated body: every element after the first is
preceded by one space. -/
def sepCat : List String → String
  | [] => ""
  | x :: xs => " " ++ x ++ sepCat xs

theorem renderFold_from_sep (rend : T → String) (l : List T) (p : String) :
    (l.foldl (fun (acc : String × String) e => (acc.1 ++ acc.2 ++ rend e, " "))
        (p, " ")).1 = p ++ sepCat (l.map rend) := by
  induction l generalizing p with
  | nil => simp [sepCat, String.append_empty]
  | cons x xs ih =>
    show (xs.foldl _ (p ++ " " ++ rend x, " ")).1 = _
    rw [ih]
    simp [sepCat, String.append_assoc]

theorem spaceSeparated_cons (s : String) (xs : List String) :
    spaceSeparated (s :: xs) = s ++ sepCat xs := by
  induction xs generalizing s with
  | nil => simp [spaceSeparated, sepCat, String.append_empty]
  | cons y ys ih =>
    show s ++ " " ++ spaceSeparated (y :: ys) = _
    rw [ih]
    simp [sepCat, String.append_assoc]

theorem setString_body (lt : T → T → Bool) (strVal : T → Option String)
    (quote : String → String) (render : T → String) (s : GSet T) :
    GSet.SetString lt strVal quote render s
      = "\x7b" ++ spaceSeparated ((GSet.ToSortedSlice lt s).map
          (GSet.elemRender strVal quote render)) ++ "\x7d" := by
  unfold GSet.SetString GSet.ToSortedSlice
  cases h : goSort lt s.elems with
  | nil => simp [spaceSeparated, String.append_empty]
  | cons x xs =>
    simp only [List.foldl_cons, List.map_cons, spaceSeparated_cons]
    rw [renderFold_from_sep]
    simp [String.append_empty, String.append_assoc]

/-- Claim C2: for every set, `String()` returns an opening brace, the
space-separated renderings of the elements in exactly the order
produced by `ToSortedSlice`, and a closing brace; string-typed elements
(those the `any(element).(string)` assertion matches) are rendered with
the quoting verb `%q`, every other element with the default verb `%v`,
and the empty set renders as the two braces alone. -/
theorem claim2_string_render :
    (∀ (T : Type) [DecidableEq T] (lt : T → T → Bool)
        (strVal : T → Option String) (quote : String → String)
        (render : T → String) (s : GSet T),
        GSet.SetString lt strVal quote render s
          = "\x7b" ++ spaceSeparated ((GSet.ToSortedSlice lt s).map
              (GSet.elemRender strVal quote render)) ++ "\x7d") ∧
      (∀ (T : Type) [DecidableEq T] (lt : T → T → Bool)
        (strVal : T → Option String) (quote : String → String)
        (render : T → String) (s : GSet T),
        s.elems = [] →
          GSet.SetString lt strVal quote render s = "\x7b\x7d") ∧
      (∀ (quote : String → String) (render : String → String) (e : String),
        GSet.elemRender (fun t => some t) quote render e = quote e) ∧
      ∀ (T : Type) (strVal : T → Option String) (quote : String → String)
        (render : T → String) (e : T), strVal e = none →
          GSet.elemRender strVal quote render e = render e := by
  refine ⟨?_, ?_, ?_, ?_⟩
  · intro T _ lt strVal quote render s
    exact setString_body lt strVal quote render s
  · intro T _ lt strVal quote render s hs
    rw [setString_body, GSet.ToSortedSlice, hs]
    show "\x7b" ++ spaceSeparated [] ++ "\x7d" = _
    rw [show spaceSeparated [] = "" from rfl, String.append_empty]
    rfl
  · intro quote render e
    rfl
  · intro T strVal quote render e he
    unfold GSet.elemRender
    rw [he]

/-- Claim C2 witness: over `Int` with `%v` rendered by `toString`, the
set built from 2 and 1 renders as the braced, space-separated, sorted
body, concretely the string with 1 then 2 between braces, and the
empty set renders as the two braces; over `String`, an element is
rendered through the quoting function. -/
theorem claim2_string_render_witness :
    GSet.SetString (lessNative Int) (fun _ => none) (fun q => q)
        (fun n : Int => toString n) (GSet.New [2, 1])
      = "\x7b" ++ spaceSeparated
          ((GSet.ToSortedSlice (lessNative Int) (GSet.New [2, 1])).map
            (GSet.elemRender (fun _ => none) (fun q => q)
              (fun n : Int => toString n))) ++ "\x7d" ∧
    GSet.SetString (lessNative Int) (fun _ => none) (fun q => q)
        (fun n : Int => toString n) (GSet.New [2, 1]) = "\x7b1 2\x7d" ∧
    GSet.SetString (lessNative Int) (fun _ => none) (fun q => q)
        (fun n : Int => toString n) (GSet.New ([] : List Int)) = "\x7b\x7d" ∧
    GSet.elemRender (fun t => some t) (fun q => "\x22" ++ q ++ "\x22")
        (fun t => t) "A" = "\x22A\x22" := by
  refine ⟨?_, ?_, ?_, ?_⟩
  · exact claim2_string_render.1 Int (lessNative Int) (fun _ => none)
      (fun q => q) (fun n : Int => toString n) (GSet.New [2, 1])
  · decide
  · exact claim2_string_render.2.1 Int (lessNative Int) (fun _ => none)
      (fun q => q) (fun n : Int => toString n) (GSet.New []) rfl
  · exact claim2_string_render.2.2.1 (fun q => "\x22" ++ q ++ "\x22")
      (fun t => t) "A"

/-! ## Frame facts over the store -/

theorem insertAll_eq_append (acc l : List T) (h : (acc ++ l).Nodup) :
    insertAll acc l = acc ++ l := by
  induction l generalizing acc with
  | nil => simp [insertAll]
  | cons x xs ih =>
    have hx : x ∉ acc := by
      rw [List.nodup_append] at h
      exact fun hxa => h.2.2 hxa (List.mem_cons_self x xs)
    show insertAll (mapInsert acc x) xs = _
    rw [mapInsert, if_neg hx]
    have hsplit : (acc ++ [x]) ++ xs = acc ++ x :: xs := by simp
    rw [ih (acc ++ [x]) (by rw [hsplit]; exact h), hsplit]

theorem insertAll_of_subset (m src : List T) (h : ∀ x ∈ src, x ∈ m) :
    insertAll m src = m := by
  induction src generalizing m with
  | nil => rfl
  | cons x xs ih =>
    show insertAll (mapInsert m x) xs = m
    rw [mapInsert, if_pos (h x (List.mem_cons_self x xs))]
    exact ih m fun y hy => h y (List.mem_cons_of_mem x hy)

theorem alloc_mem_lt (σ : Heap T) (i : Nat) (h : i < σ.next) :
    (Heap.alloc σ).1.mem i = σ.mem i := by
  simp [Heap.alloc, Nat.ne_of_lt h]

/-- Claim C4: each of `Difference`, `SymmetricDifference`,
`Intersection` and `Union` writes only through a reference it
allocated itself — the returned set is newly created, distinct from
the receiver `a` and the argument `b`, and the maps `a` and `b` name
are unchanged — and `Copy` likewise returns a new set and leaves its
receiver unchanged. -/
theorem claim4_pure_ops (T : Type) [DecidableEq T] (σ : Heap T) (a b : Nat)
    (ha : a < σ.next) (hb : b < σ.next) :
    ((differenceH σ a b).2 ≠ a ∧ (differenceH σ a b).2 ≠ b ∧
        (differenceH σ a b).1.mem a = σ.mem a ∧
        (differenceH σ a b).1.mem b = σ.mem b) ∧
      ((symmetricDifferenceH σ a b).2 ≠ a ∧ (symmetricDifferenceH σ a b).2 ≠ b ∧
        (symmetricDifferenceH σ a b).1.mem a = σ.mem a ∧
        (symmetricDifferenceH σ a b).1.mem b = σ.mem b) ∧
      ((intersectionH σ a b).2 ≠ a ∧ (intersectionH σ a b).2 ≠ b ∧
        (intersectionH σ a b).1.mem a = σ.mem a ∧
        (intersectionH σ a b).1.mem b = σ.mem b) ∧
      ((unionH σ a b).2 ≠ a ∧ (unionH σ a b).2 ≠ b ∧
        (unionH σ a b).1.mem a = σ.mem a ∧
        (unionH σ a b).1.mem b = σ.mem b) ∧
      ((copyH σ a).2 ≠ a ∧ (copyH σ a).1.mem a = σ.mem a) := by
  have hna : σ.next ≠ a := (Nat.ne_of_lt ha).symm
  have hnb : σ.next ≠ b := (Nat.ne_of_lt hb).symm
  have hone : ∀ (xs : List T) (cond : Heap T → T → Bool) (i : Nat),
      i < σ.next →
      (rangeInsertH (Heap.alloc σ).1 (Heap.alloc σ).2 xs cond).mem i = σ.mem i := by
    intro xs cond i hi
    exact (rangeInsertH_mem_ne (Heap.alloc σ).1 σ.next xs cond i
      (Nat.ne_of_lt hi)).trans (alloc_mem_lt σ i hi)
  have htwo : ∀ (xs ys : List T) (cond cond2 : Heap T → T → Bool) (i : Nat),
      i < σ.next →
      (rangeInsertH (rangeInsertH (Heap.alloc σ).1 (Heap.alloc σ).2 xs cond)
          (Heap.alloc σ).2 ys cond2).mem i = σ.mem i := by
    intro xs ys cond cond2 i hi
    exact (rangeInsertH_mem_ne _ σ.next ys cond2 i
      (Nat.ne_of_lt hi)).trans (hone xs cond i hi)
  exact ⟨⟨hna, hnb, hone _ _ a ha, hone _ _ b hb⟩,
    ⟨hna, hnb, htwo _ _ _ _ a ha, htwo _ _ _ _ b hb⟩,
    ⟨hna, hnb, htwo _ _ _ _ a ha, htwo _ _ _ _ b hb⟩,
    ⟨hna, hnb, htwo _ _ _ _ a ha, htwo _ _ _ _ b hb⟩,
    ⟨hna, hone _ _ a ha⟩⟩

/-- Claim C7: after `a.Unite(b)` the receiver `a` contains exactly the
elements that were in `a` or in `b` before the call — its key list is
exactly that of the `Union` of the old values — and the map `b` names
is unchanged (also when `a` and `b` alias the same map). -/
theorem claim7_unite (T : Type) [DecidableEq T] (σ : Heap T) (a b : Nat)
    (ha : (σ.mem a).Nodup) (hb : (σ.mem b).Nodup) :
    (∀ x : T, x ∈ (uniteH σ a b).mem a ↔ x ∈ σ.mem a ∨ x ∈ σ.mem b) ∧
      (uniteH σ a b).mem a
        = (GSet.Union ⟨σ.mem a, ha⟩ ⟨σ.mem b, hb⟩).elems ∧
      (uniteH σ a b).mem b = σ.mem b := by
  have hmema : (uniteH σ a b).mem a = insertAll (σ.mem a) (σ.mem b) :=
    rangeInsertH_mem_dst σ a (σ.mem b)
  refine ⟨?_, ?_, ?_⟩
  · intro x
    rw [hmema, mem_insertAll]
  · rw [hmema]
    show _ = insertAll (insertAll [] (σ.mem a)) (σ.mem b)
    rw [insertAll_eq_append [] (σ.mem a) (by simpa using ha)]
    rfl
  · by_cases hab : b = a
    · subst hab
      rw [hmema]
      exact insertAll_of_subset _ _ fun x hx => hx
    · exact rangeInsertH_mem_ne σ a (σ.mem b) _ b hab

/-- A concrete two-reference store over `Int` for the frame
witnesses: reference 0 holds keys 1, 2 and reference 1 holds keys
2, 3. -/
def heap2 : Heap Int :=
  ⟨fun i => if i = 0 then [1, 2] else if i = 1 then [2, 3] else [], 2⟩

/-- Claim C4 witness: on the concrete store, `Difference` returns a
reference distinct from both inputs and leaves both inputs' maps
unchanged, `Union` leaves the argument's map unchanged, and `Copy`
returns a fresh reference. -/
theorem claim4_pure_ops_witness :
    (differenceH heap2 0 1).2 ≠ 0 ∧ (differenceH heap2 0 1).2 ≠ 1 ∧
      (differenceH heap2 0 1).1.mem 0 = heap2.mem 0 ∧
      (differenceH heap2 0 1).1.mem 1 = heap2.mem 1 ∧
      (unionH heap2 0 1).1.mem 1 = heap2.mem 1 ∧
      (copyH heap2 0).2 ≠ 0 := by
  have h := claim4_pure_ops Int heap2 0 1 (by decide) (by decide)
  exact ⟨h.1.1, h.1.2.1, h.1.2.2.1, h.1.2.2.2, h.2.2.2.1.2.2.2, h.2.2.2.2.1⟩

/-- Claim C7 witness: on the concrete store, after `Unite` the receiver
holds an element iff it was in one of the two maps (checked at 3,
which only the argument held), and the argument's map is unchanged. -/
theorem claim7_unite_witness :
    ((3 : Int) ∈ (uniteH heap2 0 1).mem 0 ↔
        (3 : Int) ∈ heap2.mem 0 ∨ (3 : Int) ∈ heap2.mem 1) ∧
      (uniteH heap2 0 1).mem 1 = heap2.mem 1 := by
  have h := claim7_unite Int heap2 0 1 (by decide) (by decide)
  exact ⟨h.1 3, h.2.2⟩
